import Mathlib

/-
Shallow embedding of src/buggy_client/src/main.rs (a segmented range-request
download client).  Bytes are modelled as `Nat`, byte buffers as `List Nat`.
Network behaviour is an explicit environment parameter: the transport read
loop consumes a list of read outcomes, and the worker/scheduler layers take a
function from (round, chunk id, attempt) to the transport result.
-/

namespace BuggyClient

/-- A captured chunk: `struct Chunk { id: usize, data: Vec<u8> }` (main.rs:13). -/
structure Chunk where
  id : Nat
  data : List Nat
deriving DecidableEq, Repr

/-! ## Range request transport (`make_range_request_with_progress`, main.rs:309) -/

/-- Kinds of I/O read errors distinguished by the read loop (main.rs:349). -/
inductive ErrKind where
  | wouldBlock
  | timedOut
  | other
deriving DecidableEq, Repr

/-- One outcome of `stream.read(&mut buffer)`: `ok []` is `Ok(0)` (peer closed),
`ok bs` with `bs` nonempty is `Ok(n)` delivering bytes, `err k` is `Err(e)`. -/
inductive ReadResult where
  | ok (bytes : List Nat)
  | err (k : ErrKind)
deriving DecidableEq, Repr

/-- Whether the error kind is `WouldBlock` or `TimedOut` (main.rs:349). -/
def isTimeoutKind : ErrKind → Bool
  | .wouldBlock => true
  | .timedOut => true
  | .other => false

/-- The read loop of main.rs:340-357.  `acc` is the `response` buffer so far.
Returns `none` when the modelled event trace ends before the loop decides
(the real loop would still be blocked on the socket). -/
def readLoop : List ReadResult → List Nat → Option (Except ErrKind (List Nat))
  | [], _ => none
  | .ok [] :: _, acc => some (.ok acc)
  | .ok bs :: rest, acc => readLoop rest (acc ++ bs)
  | .err k :: _, acc =>
      if isTimeoutKind k && !acc.isEmpty then some (.ok acc) else some (.error k)

/-- Scan for the first `\r\n\r\n` delimiter; returns the index one past it
(the code's `headers_end = i + 4`, main.rs:363-370), or `none` when the
delimiter never occurs (the code's `headers_end == 0`). -/
def findDelim : List Nat → Option Nat
  | 13 :: 10 :: 13 :: 10 :: _ => some 4
  | _ :: rest => (findDelim rest).map (· + 1)
  | [] => none

/-- Split a response into `(body, header bytes)` (main.rs:359-379): empty
response or missing delimiter yield an empty body and no header text. -/
def splitResponse (resp : List Nat) : List Nat × List Nat :=
  if resp.isEmpty then ([], [])
  else
    match findDelim resp with
    | none => ([], [])
    | some he => (resp.drop he, resp.take he)

/-- The whole request viewed from the read loop on: run the read loop over the
event trace, then split the accumulated response. -/
def rangeRequest (events : List ReadResult) :
    Option (Except ErrKind (List Nat × List Nat)) :=
  (readLoop events []).map (fun r => r.map splitResponse)

/-! ## Worker retry state machine (the thread closure, main.rs:146-205) -/

/-- Result of one transport call as the worker sees it: body bytes plus the
lossily decoded header text, or an error message. -/
inductive FetchResult where
  | ok (data : List Nat) (headers : String)
  | err (msg : String)
deriving DecidableEq, Repr

/-- Boolean prefix test on character lists. -/
def hasPfx : List Char → List Char → Bool
  | [], _ => true
  | _ :: _, [] => false
  | a :: pa, b :: pb => a == b && hasPfx pa pb

/-- Boolean substring-occurrence test on character lists. -/
def hasSub (pat : List Char) : List Char → Bool
  | [] => hasPfx pat []
  | b :: rest => hasPfx pat (b :: rest) || hasSub pat rest

/-- Rust `str::contains` on the header text. -/
def strContains (s pat : String) : Bool := hasSub pat.toList s.toList

/-- The header marker the worker treats as the EOF signal (main.rs:157). -/
def eofMarker : String := "400 Invalid range:"

/-- The EOF test of main.rs:157: marker in headers, or empty body. -/
def isEof (data : List Nat) (headers : String) : Bool :=
  strContains headers eofMarker || data.isEmpty

/-- `max_chunk_retries` (main.rs:151). -/
def maxChunkRetries : Nat := 2

/-- The aggregate-state mutations one worker performs: at most one successful
chunk (pushed into the chunk vector, its id inserted into the processed set and
its length added to the byte counter, main.rs:163-174), the error-log entries
it appended (main.rs:184), and the number of transport calls it made. -/
structure WorkerEffects where
  success : Option Chunk
  errs : List (Nat × String)
  calls : Nat
deriving DecidableEq, Repr

/-- Handling of a successful transport call (main.rs:156-176): EOF responses
make the thread return `Some(chunk_id)` with no aggregate mutation; otherwise
the chunk is recorded and the thread returns `None`. -/
def handleOk (cid : Nat) (data : List Nat) (headers : String) :
    Option Nat × WorkerEffects :=
  if isEof data headers then
    (some cid, { success := none, errs := [], calls := 1 })
  else
    (none, { success := some ⟨cid, data⟩, errs := [], calls := 1 })

/-- The worker retry loop (main.rs:153-204).  `retriesLeft` is
`max_chunk_retries - retry_attempts`; the code retries an error while
`retry_attempts + 1 <= max_chunk_retries`, i.e. exactly while
`retriesLeft > 0`, appending one error-log entry per failed call. -/
def workerLoop (cid : Nat) (fetch : Nat → FetchResult) :
    Nat → Nat → Option Nat × WorkerEffects
  | attempt, 0 =>
      match fetch attempt with
      | .ok data headers => handleOk cid data headers
      | .err msg => (none, { success := none, errs := [(cid, msg)], calls := 1 })
  | attempt, r + 1 =>
      match fetch attempt with
      | .ok data headers => handleOk cid data headers
      | .err msg =>
          let rest := workerLoop cid fetch (attempt + 1) r
          (rest.1, { success := rest.2.success,
                     errs := (cid, msg) :: rest.2.errs,
                     calls := rest.2.calls + 1 })

/-- A whole worker for chunk `cid`: start at attempt 0 with the full retry
budget. -/
def runWorker (fetch : Nat → FetchResult) (cid : Nat) : Option Nat × WorkerEffects :=
  workerLoop cid fetch 0 maxChunkRetries

/-! ## Scheduler (the `while !eof_reached && retry_count <= max_retries` loop,
main.rs:119-249) -/

/-- The scheduler-visible shared state: the chunk vector, processed-id set,
error log and byte counter (main.rs:113-116), plus the loop-local
`next_chunk`, `eof_reached` and `retry_count` (main.rs:119-121). -/
structure SchedState where
  chunks : List Chunk
  processed : Finset Nat
  errors : List (Nat × String)
  totalBytes : Nat
  nextChunk : Nat
  eofReached : Bool
  retryCount : Nat

/-- `max_retries` for batches (main.rs:122). -/
def maxRetries : Nat := 3

/-- Initial state (main.rs:113-121). -/
def initState : SchedState :=
  { chunks := [], processed := ∅, errors := [], totalBytes := 0,
    nextChunk := 0, eofReached := false, retryCount := 0 }

/-- Apply one worker's aggregate mutations: a successful chunk is pushed,
its id inserted into the processed set and its length added to the byte
counter (main.rs:163-174); error entries are appended (main.rs:184). -/
def applyEffects (st : SchedState) (e : WorkerEffects) : SchedState :=
  match e.success with
  | some c =>
      { st with chunks := st.chunks ++ [c],
                processed := insert c.id st.processed,
                totalBytes := st.totalBytes + c.data.length,
                errors := st.errors ++ e.errs }
  | none => { st with errors := st.errors ++ e.errs }

/-- Apply a list of workers' mutations in order. -/
def applyAll (st : SchedState) (es : List WorkerEffects) : SchedState :=
  es.foldl applyEffects st

/-- The chunk ids spawned in one round: `next_chunk + i` for
`i in 0..concurrent_downloads`, skipping ids already processed
(main.rs:127-135). -/
def spawnIds (N : Nat) (st : SchedState) : List Nat :=
  ((List.range N).map (fun i => st.nextChunk + i)).filter
    (fun cid => decide (cid ∉ st.processed))

/-- The spawned workers' return values and effects, in spawn order. -/
def roundResults (N : Nat) (f : Nat → Nat → FetchResult) (st : SchedState) :
    List (Option Nat × WorkerEffects) :=
  (spawnIds N st).map (fun cid => runWorker (f cid) cid)

/-- The join loop of main.rs:211-225: handles are joined in spawn order and
the loop breaks at the first `Ok(Some(_))` (EOF) result, leaving the
remaining handles unjoined.  Returns the joined prefix (including the EOF
reporter) and, when an EOF was seen, the unjoined suffix. -/
def splitAtFirstEof : List (Option Nat × WorkerEffects) →
    List (Option Nat × WorkerEffects) × Option (List (Option Nat × WorkerEffects))
  | [] => ([], none)
  | r :: rest =>
      if r.1.isSome then ([r], some rest)
      else
        let p := splitAtFirstEof rest
        (r :: p.1, p.2)

/-- One scheduling round (loop body, main.rs:124-249).  Joined workers'
mutations are applied to the state; when an EOF broke the join loop, the
unjoined workers' mutations are returned as pending (they land in the shared
containers at an unsynchronised later time).  Without EOF the missing-chunk
bookkeeping of main.rs:227-248 runs. -/
def runRound (N : Nat) (f : Nat → Nat → FetchResult) (st : SchedState) :
    SchedState × List WorkerEffects :=
  let results := roundResults N f st
  match splitAtFirstEof results with
  | (joined, some rest) =>
      let st1 := applyAll st (joined.map Prod.snd)
      ({ st1 with eofReached := true }, rest.map Prod.snd)
  | (joined, none) =>
      let st1 := applyAll st (joined.map Prod.snd)
      let expected := (Finset.range N).image (fun i => st.nextChunk + i)
      let missing := expected \ st1.processed
      if missing = ∅ then
        ({ st1 with nextChunk := st1.nextChunk + N, retryCount := 0 }, [])
      else if st1.retryCount + 1 > maxRetries then
        ({ st1 with nextChunk := st1.nextChunk + N, retryCount := 0 }, [])
      else
        ({ st1 with retryCount := st1.retryCount + 1 }, [])

/-- The loop guard `!eof_reached && retry_count <= max_retries`
(main.rs:124). -/
def loopGuard (st : SchedState) : Bool :=
  !st.eofReached && decide (st.retryCount ≤ maxRetries)

/-- State (and accumulated pending unjoined effects) after `n` rounds of the
scheduler loop, driven by `w round cid attempt`. -/
def runRounds (N : Nat) (w : Nat → Nat → Nat → FetchResult) :
    Nat → SchedState × List WorkerEffects
  | 0 => (initState, [])
  | n + 1 =>
      let p := runRounds N w n
      if loopGuard p.1 then
        let q := runRound N (w n) p.1
        (q.1, p.2 ++ q.2)
      else p

/-- Which pending (unjoined) workers happen to finish before the scheduler's
final snapshot: `sel` selects by position in the pending list. -/
def selectPending (sel : Nat → Bool) : Nat → List WorkerEffects → List WorkerEffects
  | _, [] => []
  | i, e :: rest =>
      if sel i then e :: selectPending sel (i + 1) rest
      else selectPending sel (i + 1) rest

/-- The state the post-loop code observes: the terminal state plus whichever
pending unjoined workers' mutations landed before the snapshot
(main.rs:253 clones the chunk vector with no further synchronisation). -/
def snapshotState (N : Nat) (w : Nat → Nat → Nat → FetchResult) (n : Nat)
    (sel : Nat → Bool) : SchedState :=
  applyAll (runRounds N w n).1 (selectPending sel 0 (runRounds N w n).2)

/-- The chunk collection the assembler consumes (main.rs:253). -/
def snapshotChunks (N : Nat) (w : Nat → Nat → Nat → FetchResult) (n : Nat)
    (sel : Nat → Bool) : List Chunk :=
  (snapshotState N w n sel).chunks

/-! ## Assembler (main.rs:253-259) and verifier/finalisation (main.rs:261-306) -/

/-- Chunks sorted by ascending id (`all_chunks.sort_by_key(|chunk| chunk.id)`,
main.rs:254; a stable sort). -/
def sortChunks (cs : List Chunk) : List Chunk :=
  cs.insertionSort (fun a b => a.id ≤ b.id)

/-- The assembled output: data of the sorted chunks concatenated
(main.rs:256-259). -/
def assemble (cs : List Chunk) : List Nat :=
  ((sortChunks cs).map Chunk.data).flatten

/-- Rust `str::to_lowercase` as used on the expected hash (main.rs:273),
modelled character-wise. -/
def strToLower (s : String) : String := String.mk (s.toList.map Char.toLower)

/-- What the post-assembly code produces: the assembled bytes, the computed
digest text, whether checksum verification failed, and the bytes written to
the output destination (if any). -/
structure RunReport where
  assembled : List Nat
  digestHex : String
  checksumFailed : Bool
  fileWritten : Option (List Nat)
deriving DecidableEq, Repr

/-- The code after assembly (main.rs:261-306): compute the digest (the hash
itself is opaque, passed as `digest`), compare it case-insensitively against
the optional expected hash, and on mismatch return early with an error —
before the output-file write at main.rs:283-290 is ever reached.  On match
(or no expected hash) the assembled bytes are written to the requested
output destination when one was given. -/
def finalize (allData : List Nat) (digest : List Nat → String)
    (verifyHash : Option String) (outputFile : Option String) : RunReport :=
  let calcHex := digest allData
  match verifyHash with
  | some expected =>
      if strToLower expected = calcHex then
        { assembled := allData, digestHex := calcHex, checksumFailed := false,
          fileWritten := outputFile.map (fun _ => allData) }
      else
        { assembled := allData, digestHex := calcHex, checksumFailed := true,
          fileWritten := none }
  | none =>
      { assembled := allData, digestHex := calcHex, checksumFailed := false,
        fileWritten := outputFile.map (fun _ => allData) }

/-! ## Derived notions used by the statements and proofs -/

/-- Whether a transport result is the EOF signal as the worker classifies it. -/
def fetchEof : FetchResult → Bool
  | .ok d h => isEof d h
  | .err _ => false

/-- Ids of the chunks in a chunk list. -/
def chunkIds (cs : List Chunk) : List Nat := cs.map Chunk.id

/-- Ids of the successful chunks in a list of worker effects. -/
def effIds (es : List WorkerEffects) : List Nat :=
  es.filterMap (fun e => e.success.map Chunk.id)

/-- The effects of the workers the join loop actually joined. -/
def joinedEffs (N : Nat) (f : Nat → Nat → FetchResult) (st : SchedState) :
    List WorkerEffects :=
  (splitAtFirstEof (roundResults N f st)).1.map Prod.snd

/-- The effects of the workers left unjoined by the early break. -/
def pendEffs (N : Nat) (f : Nat → Nat → FetchResult) (st : SchedState) :
    List WorkerEffects :=
  (((splitAtFirstEof (roundResults N f st)).2).getD []).map Prod.snd

/-- Run invariant tying the chunk store, the processed set and the pending
unjoined effects together. -/
def Inv (p : SchedState × List WorkerEffects) : Prop :=
  (chunkIds p.1.chunks ++ effIds p.2).Nodup ∧
  (∀ c ∈ p.1.chunks, c.id ∈ p.1.processed) ∧
  (p.1.eofReached = false → p.2 = [])

/-- A concrete environment for the round-barrier scenario: the transport
returns the EOF signal (empty body) for chunk 0 and a successful two-byte
response for every other chunk, in every round and attempt. -/
def c1World : Nat → Nat → Nat → FetchResult :=
  fun _ cid _ =>
    if cid = 0 then .ok [] "" else .ok [7, 8] "HTTP/1.1 206 Partial Content"

instance : IsTotal Chunk (fun a b => a.id ≤ b.id) := ⟨fun a b => Nat.le_total a.id b.id⟩

instance : IsTrans Chunk (fun a b => a.id ≤ b.id) := ⟨fun _ _ _ => Nat.le_trans⟩

instance : IsAntisymm Chunk (fun a b => a.id < b.id) :=
  ⟨fun _ _ h1 h2 => absurd (Nat.lt_trans h1 h2) (Nat.lt_irrefl _)⟩

/-! ## Transport lemmas -/

theorem readLoop_append_ok (pre : List (List Nat)) (l : List ReadResult)
    (acc : List Nat) (h : ∀ b ∈ pre, b ≠ []) :
    readLoop (pre.map ReadResult.ok ++ l) acc = readLoop l (acc ++ pre.flatten) := by
  induction pre generalizing acc with
  | nil => simp
  | cons b t ih =>
      cases b with
      | nil => exact absurd rfl (h [] (by simp))
      | cons x xs =>
          have ht : ∀ b ∈ t, b ≠ [] := fun b hb => h b (by simp [hb])
          rw [List.map_cons, List.cons_append]
          rw [show readLoop (ReadResult.ok (x :: xs) ::
                (List.map ReadResult.ok t ++ l)) acc =
              readLoop (List.map ReadResult.ok t ++ l) (acc ++ (x :: xs)) from by
            simp [readLoop]]
          rw [ih _ ht, List.flatten_cons, List.append_assoc]

theorem flatten_ne_nil_of_head {pre : List (List Nat)} (h : ∀ b ∈ pre, b ≠ [])
    (hne : pre ≠ []) : pre.flatten ≠ [] := by
  cases pre with
  | nil => exact absurd rfl hne
  | cons b t =>
      have hb : b ≠ [] := h b (by simp)
      cases b with
      | nil => exact absurd rfl hb
      | cons x xs => simp

/-- C9: in the transport read loop, a timeout (WouldBlock/TimedOut) after at
least one byte of response has arrived ends the call successfully with the
bytes read so far; a read that fails before any bytes arrived surfaces the
error. -/
theorem c9_read_timeout_policy :
    (∀ (pre : List (List Nat)) (k : ErrKind) (rest : List ReadResult),
        (∀ b ∈ pre, b ≠ []) → pre ≠ [] → isTimeoutKind k = true →
        readLoop (pre.map ReadResult.ok ++ ReadResult.err k :: rest) [] =
          some (.ok pre.flatten)) ∧
    (∀ (k : ErrKind) (rest : List ReadResult),
        readLoop (ReadResult.err k :: rest) [] = some (.error k)) := by
  constructor
  · intro pre k rest hne hpre hk
    rw [readLoop_append_ok pre _ [] hne]
    have hfl : pre.flatten ≠ [] := flatten_ne_nil_of_head hne hpre
    simp [readLoop, hk, hfl]
  · intro k rest
    simp [readLoop]

/-- Witness for C9 at a concrete trace: one 1-byte read then a timeout gives
success with that byte; an immediate error gives that error. -/
theorem c9_read_timeout_policy_witness :
    readLoop [ReadResult.ok [65], ReadResult.err .timedOut] [] =
      some (.ok [65]) ∧
    readLoop [ReadResult.err .other] [] = some (.error .other) := by
  refine ⟨?_, c9_read_timeout_policy.2 .other []⟩
  have h := c9_read_timeout_policy.1 [[65]] .timedOut [] (by simp) (by simp) rfl
  simpa using h

/-- C10: when the header/body delimiter never occurs in the received response
(including a completely empty response), the transport returns success with an
empty body and no header text instead of an error. -/
theorem c10_missing_delimiter_gives_empty_success :
    (∀ (events : List ReadResult) (resp : List Nat),
        readLoop events [] = some (.ok resp) → findDelim resp = none →
        rangeRequest events = some (.ok ([], []))) ∧
    splitResponse [] = ([], []) := by
  refine ⟨?_, rfl⟩
  intro events resp hr hd
  unfold rangeRequest
  rw [hr]
  simp [Except.map, splitResponse, hd]

/-- Witness for C10: a one-byte response with no delimiter yields success with
empty body and headers. -/
theorem c10_missing_delimiter_witness :
    rangeRequest [ReadResult.ok [72], ReadResult.ok []] = some (.ok ([], [])) :=
  c10_missing_delimiter_gives_empty_success.1 _ [72] rfl rfl

/-! ## Verifier / finalisation -/

/-- C3 counterexample: with an expected hash that does not match, the run is
reported failed, but nothing is ever written to the requested output
destination (the early return at main.rs:279 precedes the write at
main.rs:283-290) — contradicting the claim that the output written to the
destination is left intact. -/
theorem c3_counterexample :
    (finalize [1, 2] (fun _ => "aa") (some "bb") (some "out.bin")).checksumFailed
        = true ∧
    ¬ (finalize [1, 2] (fun _ => "aa") (some "bb") (some "out.bin")).fileWritten
        = some [1, 2] ∧
    (finalize [1, 2] (fun _ => "aa") (some "bb") (some "out.bin")).fileWritten
        = none := by
  refine ⟨rfl, by decide, rfl⟩

/-- C3 amended: a checksum mismatch fails the whole run and leaves the
in-memory assembled bytes untouched, but the program returns before reaching
the output-file write, so the requested output destination is never
written. -/
theorem c3_mismatch_fails_and_skips_write
    (allData : List Nat) (digest : List Nat → String) (expected path : String)
    (h : strToLower expected ≠ digest allData) :
    (finalize allData digest (some expected) (some path)).checksumFailed = true ∧
    (finalize allData digest (some expected) (some path)).assembled = allData ∧
    (finalize allData digest (some expected) (some path)).fileWritten = none := by
  simp [finalize, h]

/-- Witness for the amended C3 at concrete inputs. -/
theorem c3_mismatch_witness :
    (finalize [3] (fun _ => "aa") (some "BB") (some "o")).checksumFailed = true ∧
    (finalize [3] (fun _ => "aa") (some "BB") (some "o")).assembled = [3] ∧
    (finalize [3] (fun _ => "aa") (some "BB") (some "o")).fileWritten = none :=
  c3_mismatch_fails_and_skips_write [3] (fun _ => "aa") "BB" "o" (by decide)

/-! ## Assembler lemmas -/

theorem sortChunks_perm (cs : List Chunk) : List.Perm (sortChunks cs) cs :=
  List.perm_insertionSort _ cs

theorem sortChunks_sorted (cs : List Chunk) :
    List.Sorted (fun a b : Chunk => a.id ≤ b.id) (sortChunks cs) :=
  List.sorted_insertionSort _ cs

theorem sorted_lt_of_nodup {l : List Chunk}
    (hs : List.Sorted (fun a b : Chunk => a.id ≤ b.id) l)
    (hn : (l.map Chunk.id).Nodup) :
    List.Sorted (fun a b : Chunk => a.id < b.id) l := by
  have hne : l.Pairwise (fun a b : Chunk => a.id ≠ b.id) := List.pairwise_map.mp hn
  exact (hs.and hne).imp (fun h => lt_of_le_of_ne h.1 h.2)

theorem sortChunks_eq_of_perm {cs cs' : List Chunk}
    (hn : (cs.map Chunk.id).Nodup) (hp : List.Perm cs cs') :
    sortChunks cs = sortChunks cs' := by
  have hp2 : List.Perm (sortChunks cs) (sortChunks cs') :=
    (sortChunks_perm cs).trans (hp.trans (sortChunks_perm cs').symm)
  have hn1 : ((sortChunks cs).map Chunk.id).Nodup :=
    (((sortChunks_perm cs).map Chunk.id).nodup_iff).mpr hn
  have hn2 : ((sortChunks cs').map Chunk.id).Nodup :=
    ((((sortChunks_perm cs').trans hp.symm).map Chunk.id).nodup_iff).mpr hn
  exact List.eq_of_perm_of_sorted hp2
    (sorted_lt_of_nodup (sortChunks_sorted cs) hn1)
    (sorted_lt_of_nodup (sortChunks_sorted cs') hn2)

/-- C4: the assembled output is the concatenation of the captured chunks'
data in ascending id order; its length is the sum of the captured data
lengths; with distinct ids the output is independent of the order in which
the chunks were pushed; nothing but the captured data enters the output (no
padding). -/
theorem c4_assembler_output (cs : List Chunk) :
    assemble cs = ((sortChunks cs).map Chunk.data).flatten ∧
    List.Sorted (fun a b : Chunk => a.id ≤ b.id) (sortChunks cs) ∧
    List.Perm (sortChunks cs) cs ∧
    (assemble cs).length = (cs.map (fun c => c.data.length)).sum ∧
    ((cs.map Chunk.id).Nodup → ∀ cs', List.Perm cs cs' →
        assemble cs = assemble cs') := by
  refine ⟨rfl, sortChunks_sorted cs, sortChunks_perm cs, ?_, ?_⟩
  · unfold assemble
    rw [List.length_flatten, List.map_map]
    have hp := (sortChunks_perm cs).map (fun c : Chunk => c.data.length)
    simpa [Function.comp] using hp.sum_eq
  · intro hn cs' hp
    unfold assemble
    rw [sortChunks_eq_of_perm hn hp]

/-- Witness for C4: two concrete chunk lists that are permutations of each
other assemble to the same bytes. -/
theorem c4_assembler_witness :
    assemble [(⟨1, [9]⟩ : Chunk), ⟨0, [5, 6]⟩] =
      assemble [(⟨0, [5, 6]⟩ : Chunk), ⟨1, [9]⟩] ∧
    assemble [(⟨1, [9]⟩ : Chunk), ⟨0, [5, 6]⟩] = [5, 6, 9] :=
  ⟨(c4_assembler_output _).2.2.2.2 (by decide) _ (by decide), by decide⟩

/-! ## Worker lemmas -/

theorem workerLoop_ok_eq {f : Nat → FetchResult} {attempt : Nat} {d : List Nat}
    {h' : String} (cid r : Nat) (hf : f attempt = .ok d h') :
    workerLoop cid f attempt r = handleOk cid d h' := by
  cases r <;> simp [workerLoop, hf]

theorem workerLoop_err_zero {f : Nat → FetchResult} {attempt : Nat} {m : String}
    (cid : Nat) (hf : f attempt = .err m) :
    workerLoop cid f attempt 0 =
      (none, { success := none, errs := [(cid, m)], calls := 1 }) := by
  simp [workerLoop, hf]

theorem workerLoop_err_succ {f : Nat → FetchResult} {attempt : Nat} {m : String}
    (cid r : Nat) (hf : f attempt = .err m) :
    workerLoop cid f attempt (r + 1) =
      ((workerLoop cid f (attempt + 1) r).1,
       { success := (workerLoop cid f (attempt + 1) r).2.success,
         errs := (cid, m) :: (workerLoop cid f (attempt + 1) r).2.errs,
         calls := (workerLoop cid f (attempt + 1) r).2.calls + 1 }) := by
  simp [workerLoop, hf]

theorem handleOk_success_id {cid : Nat} {d : List Nat} {h' : String} {c : Chunk}
    (hc : (handleOk cid d h').2.success = some c) : c.id = cid := by
  unfold handleOk at hc
  split at hc
  · simp at hc
  · simp at hc
    rw [← hc]

theorem workerLoop_success_id (cid : Nat) (f : Nat → FetchResult) :
    ∀ r attempt c, (workerLoop cid f attempt r).2.success = some c → c.id = cid := by
  intro r
  induction r with
  | zero =>
      intro attempt c hc
      cases hf : f attempt with
      | ok d h' =>
          rw [workerLoop_ok_eq cid 0 hf] at hc
          exact handleOk_success_id hc
      | err m =>
          rw [workerLoop_err_zero cid hf] at hc
          simp at hc
  | succ r ih =>
      intro attempt c hc
      cases hf : f attempt with
      | ok d h' =>
          rw [workerLoop_ok_eq cid (r + 1) hf] at hc
          exact handleOk_success_id hc
      | err m =>
          rw [workerLoop_err_succ cid r hf] at hc
          exact ih (attempt + 1) c hc

theorem runWorker_success_id {f : Nat → FetchResult} {cid : Nat} {c : Chunk}
    (hc : (runWorker f cid).2.success = some c) : c.id = cid :=
  workerLoop_success_id cid f maxChunkRetries 0 c hc

theorem workerLoop_ret_none (cid : Nat) (f : Nat → FetchResult)
    (hf : ∀ a, fetchEof (f a) = false) :
    ∀ r attempt, (workerLoop cid f attempt r).1 = none := by
  intro r
  induction r with
  | zero =>
      intro attempt
      cases hfa : f attempt with
      | ok d h' =>
          rw [workerLoop_ok_eq cid 0 hfa]
          have he := hf attempt
          rw [hfa] at he
          simp [fetchEof] at he
          simp [handleOk, he]
      | err m => rw [workerLoop_err_zero cid hfa]
  | succ r ih =>
      intro attempt
      cases hfa : f attempt with
      | ok d h' =>
          rw [workerLoop_ok_eq cid (r + 1) hfa]
          have he := hf attempt
          rw [hfa] at he
          simp [fetchEof] at he
          simp [handleOk, he]
      | err m =>
          rw [workerLoop_err_succ cid r hfa]
          exact ih (attempt + 1)

/-- C5: a worker whose transport calls all fail makes exactly
`max_chunk_retries + 1 = 3` calls, appends one error-log entry per failed
call and is abandoned with no chunk recorded; a worker that fails twice and
then succeeds ends successfully with exactly two error entries for its id and
exactly one recorded chunk. -/
theorem c5_retry_bound (f g : Nat → FetchResult) (cid cid2 : Nat)
    (m0 m1 m2 n0 n1 : String) (d : List Nat) (h : String)
    (hf0 : f 0 = .err m0) (hf1 : f 1 = .err m1) (hf2 : f 2 = .err m2)
    (hg0 : g 0 = .err n0) (hg1 : g 1 = .err n1) (hg2 : g 2 = .ok d h)
    (hne : isEof d h = false) :
    runWorker f cid =
      (none, { success := none, errs := [(cid, m0), (cid, m1), (cid, m2)],
               calls := maxChunkRetries + 1 }) ∧
    runWorker g cid2 =
      (none, { success := some ⟨cid2, d⟩, errs := [(cid2, n0), (cid2, n1)],
               calls := maxChunkRetries + 1 }) := by
  constructor
  · have e : runWorker f cid = workerLoop cid f 0 2 := rfl
    rw [e, workerLoop_err_succ cid 1 hf0, workerLoop_err_succ cid 0 hf1,
      workerLoop_err_zero cid hf2]
    rfl
  · have e : runWorker g cid2 = workerLoop cid2 g 0 2 := rfl
    rw [e, workerLoop_err_succ cid2 1 hg0, workerLoop_err_succ cid2 0 hg1,
      workerLoop_ok_eq cid2 0 hg2]
    simp [handleOk, hne]
    rfl

/-- Witness for C5 at concrete transport behaviours. -/
theorem c5_retry_bound_witness :
    runWorker (fun _ => .err "boom") 4 =
      (none, { success := none, errs := [(4, "boom"), (4, "boom"), (4, "boom")],
               calls := maxChunkRetries + 1 }) ∧
    runWorker (fun a => if a ≤ 1 then .err "t" else .ok [9] "HTTP/1.1 206") 3 =
      (none, { success := some ⟨3, [9]⟩, errs := [(3, "t"), (3, "t")],
               calls := maxChunkRetries + 1 }) :=
  c5_retry_bound (fun _ => .err "boom")
    (fun a => if a ≤ 1 then .err "t" else .ok [9] "HTTP/1.1 206")
    4 3 "boom" "boom" "boom" "t" "t" [9] "HTTP/1.1 206"
    rfl rfl rfl rfl rfl rfl (by decide)

/-- C7: a successful transport result is treated as the EOF signal exactly
when the header text contains the invalid-range marker or the body is empty,
and in that case the worker performs no aggregate-state mutation: no chunk,
no processed-set insertion, no error entry, no byte-counter update. -/
theorem c7_eof_no_mutation (cid : Nat) (data : List Nat) (headers : String)
    (st : SchedState) :
    ((handleOk cid data headers).1 = some cid ↔
        (strContains headers eofMarker || data.isEmpty) = true) ∧
    ((strContains headers eofMarker || data.isEmpty) = true →
        (handleOk cid data headers).2.success = none ∧
        (handleOk cid data headers).2.errs = [] ∧
        applyEffects st (handleOk cid data headers).2 = st) := by
  cases hb : strContains headers eofMarker || data.isEmpty with
  | true => simp [handleOk, isEof, hb, applyEffects]
  | false => simp [handleOk, isEof, hb]

/-- Witness for C7: an empty body is the EOF signal and leaves the aggregate
state untouched. -/
theorem c7_eof_no_mutation_witness :
    (handleOk 7 [] "x").1 = some 7 ∧
    applyEffects initState (handleOk 7 [] "x").2 = initState :=
  ⟨(c7_eof_no_mutation 7 [] "x" initState).1.mpr (by decide),
   ((c7_eof_no_mutation 7 [] "x" initState).2 (by decide)).2.2⟩

/-! ## Aggregate-state lemmas -/

theorem applyAll_nil (st : SchedState) : applyAll st [] = st := rfl

theorem applyAll_cons (st : SchedState) (e : WorkerEffects) (es : List WorkerEffects) :
    applyAll st (e :: es) = applyAll (applyEffects st e) es := rfl

theorem applyEffects_nextChunk (st : SchedState) (e : WorkerEffects) :
    (applyEffects st e).nextChunk = st.nextChunk := by
  rcases e with ⟨s, es, c⟩
  cases s <;> rfl

theorem applyEffects_retryCount (st : SchedState) (e : WorkerEffects) :
    (applyEffects st e).retryCount = st.retryCount := by
  rcases e with ⟨s, es, c⟩
  cases s <;> rfl

theorem applyEffects_eofReached (st : SchedState) (e : WorkerEffects) :
    (applyEffects st e).eofReached = st.eofReached := by
  rcases e with ⟨s, es, c⟩
  cases s <;> rfl

theorem applyAll_nextChunk (es : List WorkerEffects) :
    ∀ st, (applyAll st es).nextChunk = st.nextChunk := by
  induction es with
  | nil => intro st; rfl
  | cons e es ih =>
      intro st
      rw [applyAll_cons, ih, applyEffects_nextChunk]

theorem applyAll_retryCount (es : List WorkerEffects) :
    ∀ st, (applyAll st es).retryCount = st.retryCount := by
  induction es with
  | nil => intro st; rfl
  | cons e es ih =>
      intro st
      rw [applyAll_cons, ih, applyEffects_retryCount]

theorem applyAll_eofReached (es : List WorkerEffects) :
    ∀ st, (applyAll st es).eofReached = st.eofReached := by
  induction es with
  | nil => intro st; rfl
  | cons e es ih =>
      intro st
      rw [applyAll_cons, ih, applyEffects_eofReached]

theorem applyAll_chunks (es : List WorkerEffects) :
    ∀ st, (applyAll st es).chunks =
      st.chunks ++ es.filterMap (fun e => e.success) := by
  induction es with
  | nil => intro st; simp [applyAll_nil]
  | cons e es ih =>
      intro st
      rw [applyAll_cons, ih]
      rcases e with ⟨s, errsf, callsf⟩
      cases s with
      | some c => simp [applyEffects, List.filterMap_cons]
      | none => simp [applyEffects, List.filterMap_cons]

theorem applyAll_processed_mem (es : List WorkerEffects) :
    ∀ st x, x ∈ (applyAll st es).processed ↔
      x ∈ st.processed ∨ x ∈ effIds es := by
  induction es with
  | nil => intro st x; simp [applyAll_nil, effIds]
  | cons e es ih =>
      intro st x
      rw [applyAll_cons, ih]
      rcases e with ⟨s, errsf, callsf⟩
      cases s with
      | some c =>
          simp [applyEffects, effIds, List.filterMap_cons, Finset.mem_insert]
          tauto
      | none => simp [applyEffects, effIds, List.filterMap_cons]

theorem applyAll_processed_mono (es : List WorkerEffects) (st : SchedState) :
    st.processed ⊆ (applyAll st es).processed :=
  fun x hx => (applyAll_processed_mem es st x).mpr (Or.inl hx)

/-! ## Spawn-set lemmas -/

theorem spawnIds_nodup (N : Nat) (st : SchedState) : (spawnIds N st).Nodup := by
  unfold spawnIds
  exact ((List.nodup_range N).map (fun a b hab => by omega)).filter _

theorem spawnIds_not_processed {N : Nat} {st : SchedState} {cid : Nat}
    (h : cid ∈ spawnIds N st) : cid ∉ st.processed := by
  unfold spawnIds at h
  exact of_decide_eq_true (List.mem_filter.mp h).2

theorem spawnIds_toFinset (N : Nat) (st : SchedState) :
    (spawnIds N st).toFinset =
      ((Finset.range N).image (fun i => st.nextChunk + i)) \ st.processed := by
  ext x
  simp [spawnIds, List.mem_filter, Finset.mem_sdiff, Finset.mem_image]

/-! ## Round-result lemmas -/

theorem effIds_append (a b : List WorkerEffects) :
    effIds (a ++ b) = effIds a ++ effIds b :=
  List.filterMap_append a b _

theorem chunkIds_append (a b : List Chunk) :
    chunkIds (a ++ b) = chunkIds a ++ chunkIds b :=
  List.map_append _ a b

theorem chunkIds_filterMap (es : List WorkerEffects) :
    chunkIds (es.filterMap (fun e => e.success)) = effIds es := by
  simp [chunkIds, effIds, List.map_filterMap]

theorem effIds_map_runWorker_sublist (f : Nat → Nat → FetchResult) :
    ∀ ids : List Nat,
      List.Sublist
        (effIds ((ids.map (fun cid => runWorker (f cid) cid)).map Prod.snd))
        ids := by
  intro ids
  induction ids with
  | nil => simp [effIds]
  | cons cid t ih =>
      simp only [List.map_cons]
      cases hs : (runWorker (f cid) cid).2.success with
      | none =>
          rw [show effIds ((runWorker (f cid) cid).2 ::
              (t.map (fun cid => runWorker (f cid) cid)).map Prod.snd) =
            effIds ((t.map (fun cid => runWorker (f cid) cid)).map Prod.snd) from by
              simp [effIds, List.filterMap_cons, hs]]
          exact ih.cons cid
      | some c =>
          have hid : c.id = cid := runWorker_success_id hs
          rw [show effIds ((runWorker (f cid) cid).2 ::
              (t.map (fun cid => runWorker (f cid) cid)).map Prod.snd) =
            c.id :: effIds ((t.map (fun cid => runWorker (f cid) cid)).map Prod.snd)
              from by simp [effIds, List.filterMap_cons, hs]]
          rw [hid]
          exact ih.cons₂ cid

theorem roundResults_effIds_sublist (N : Nat) (f : Nat → Nat → FetchResult)
    (st : SchedState) :
    List.Sublist (effIds ((roundResults N f st).map Prod.snd)) (spawnIds N st) :=
  effIds_map_runWorker_sublist f (spawnIds N st)

/-! ## Join-split lemmas -/

theorem splitAtFirstEof_some {rs j rest : List (Option Nat × WorkerEffects)}
    (h : splitAtFirstEof rs = (j, some rest)) : rs = j ++ rest := by
  induction rs generalizing j with
  | nil => simp [splitAtFirstEof] at h
  | cons r t ih =>
      unfold splitAtFirstEof at h
      split at h
      · injection h with h1 h2
        injection h2 with h3
        subst h1
        subst h3
        rfl
      · have h1 : j = r :: (splitAtFirstEof t).1 := by
          injection h with h1 h2
          exact h1.symm
        have h2 : (splitAtFirstEof t).2 = some rest := by
          injection h with h1' h2'
        subst h1
        have ht : splitAtFirstEof t = ((splitAtFirstEof t).1, some rest) := by
          rw [← h2]
        have := ih ht
        rw [List.cons_append, ← this]

theorem splitAtFirstEof_none {rs j : List (Option Nat × WorkerEffects)}
    (h : splitAtFirstEof rs = (j, none)) : j = rs := by
  induction rs generalizing j with
  | nil =>
      unfold splitAtFirstEof at h
      injection h with h1 h2
      exact h1.symm
  | cons r t ih =>
      unfold splitAtFirstEof at h
      split at h
      · injection h with h1 h2
        cases h2
      · injection h with h1 h2
        have ht : splitAtFirstEof t = ((splitAtFirstEof t).1, none) := by
          rw [← h2]
        rw [← h1, ih ht]

theorem splitAtFirstEof_all_none {rs : List (Option Nat × WorkerEffects)}
    (h : ∀ r ∈ rs, r.1 = none) : splitAtFirstEof rs = (rs, none) := by
  induction rs with
  | nil => rfl
  | cons r t ih =>
      have hr : r.1 = none := h r (by simp)
      have ht : ∀ x ∈ t, x.1 = none := fun x hx => h x (by simp [hx])
      simp [splitAtFirstEof, hr, ih ht]

/-! ## Round lemmas -/

theorem runRound_chunks (N : Nat) (f : Nat → Nat → FetchResult) (st : SchedState) :
    (runRound N f st).1.chunks = (applyAll st (joinedEffs N f st)).chunks := by
  unfold runRound joinedEffs
  rcases h : splitAtFirstEof (roundResults N f st) with ⟨j, om⟩
  cases om with
  | some rest => simp [h]
  | none =>
      simp only [h]
      split_ifs <;> rfl

theorem runRound_processed (N : Nat) (f : Nat → Nat → FetchResult) (st : SchedState) :
    (runRound N f st).1.processed = (applyAll st (joinedEffs N f st)).processed := by
  unfold runRound joinedEffs
  rcases h : splitAtFirstEof (roundResults N f st) with ⟨j, om⟩
  cases om with
  | some rest => simp [h]
  | none =>
      simp only [h]
      split_ifs <;> rfl

theorem runRound_pend (N : Nat) (f : Nat → Nat → FetchResult) (st : SchedState) :
    (runRound N f st).2 = pendEffs N f st := by
  unfold runRound pendEffs
  rcases h : splitAtFirstEof (roundResults N f st) with ⟨j, om⟩
  cases om with
  | some rest => simp [h]
  | none =>
      simp only [h]
      split_ifs <;> rfl

theorem joinedEffs_append_pendEffs (N : Nat) (f : Nat → Nat → FetchResult)
    (st : SchedState) :
    joinedEffs N f st ++ pendEffs N f st = (roundResults N f st).map Prod.snd := by
  unfold joinedEffs pendEffs
  rcases h : splitAtFirstEof (roundResults N f st) with ⟨j, om⟩
  cases om with
  | none =>
      have hj := splitAtFirstEof_none h
      simp [hj]
  | some rest =>
      have hj := splitAtFirstEof_some h
      simp [hj, List.map_append]

theorem runRound_pend_nil_of_not_eof (N : Nat) (f : Nat → Nat → FetchResult)
    (st : SchedState) (h : (runRound N f st).1.eofReached = false) :
    (runRound N f st).2 = [] := by
  unfold runRound at *
  rcases hs : splitAtFirstEof (roundResults N f st) with ⟨j, om⟩
  simp only [hs] at h
  cases om with
  | some rest => simp at h
  | none =>
      simp only [hs]
      split_ifs <;> rfl

theorem runRound_processed_mono (N : Nat) (f : Nat → Nat → FetchResult)
    (st : SchedState) : st.processed ⊆ (runRound N f st).1.processed := by
  rw [runRound_processed]
  exact applyAll_processed_mono _ st

theorem runRound_retryCount_le (N : Nat) (f : Nat → Nat → FetchResult)
    (st : SchedState) (h : st.retryCount ≤ maxRetries) :
    (runRound N f st).1.retryCount ≤ maxRetries := by
  unfold runRound
  rcases hs : splitAtFirstEof (roundResults N f st) with ⟨j, om⟩
  cases om with
  | some rest =>
      simpa [hs, applyAll_retryCount] using h
  | none =>
      simp only [hs]
      split_ifs with h1 h2
      · exact Nat.zero_le _
      · exact Nat.zero_le _
      · exact Nat.le_of_not_lt h2

theorem runRound_no_eof (N : Nat) (f : Nat → Nat → FetchResult) (st : SchedState)
    (h : ∀ r ∈ roundResults N f st, r.1 = none) :
    (runRound N f st).1.eofReached = st.eofReached := by
  unfold runRound
  simp only [splitAtFirstEof_all_none h]
  split_ifs <;> simp [applyAll_eofReached]

/-- One round preserves the run invariant. -/
theorem inv_round (N : Nat) (f : Nat → Nat → FetchResult) (st : SchedState)
    (h1 : (chunkIds st.chunks).Nodup)
    (h2 : ∀ c ∈ st.chunks, c.id ∈ st.processed) :
    Inv ((runRound N f st).1, (runRound N f st).2) := by
  have hsub := roundResults_effIds_sublist N f st
  have hnodupNew : (effIds ((roundResults N f st).map Prod.snd)).Nodup :=
    (spawnIds_nodup N st).sublist hsub
  have hdisj : (chunkIds st.chunks).Disjoint
      (effIds ((roundResults N f st).map Prod.snd)) := by
    intro x hx1 hx2
    have hxp : x ∉ st.processed := spawnIds_not_processed (hsub.subset hx2)
    obtain ⟨c, hc, hcx⟩ := List.mem_map.mp hx1
    exact hxp (hcx ▸ h2 c hc)
  refine ⟨?_, ?_, ?_⟩
  · rw [runRound_chunks, runRound_pend, applyAll_chunks, chunkIds_append,
      chunkIds_filterMap, List.append_assoc, ← effIds_append,
      joinedEffs_append_pendEffs]
    exact h1.append hnodupNew hdisj
  · intro c hc
    rw [runRound_chunks, applyAll_chunks] at hc
    rw [runRound_processed, applyAll_processed_mem]
    rcases List.mem_append.mp hc with hold | hnew
    · exact Or.inl (h2 c hold)
    · right
      obtain ⟨e, he, hes⟩ := List.mem_filterMap.mp hnew
      exact List.mem_filterMap.mpr ⟨e, he, by rw [hes]; rfl⟩
  · exact runRound_pend_nil_of_not_eof N f st

/-! ## Scheduler-loop lemmas -/

theorem runRounds_succ (N : Nat) (w : Nat → Nat → Nat → FetchResult) (n : Nat) :
    runRounds N w (n + 1) =
      if loopGuard (runRounds N w n).1 then
        ((runRound N (w n) (runRounds N w n).1).1,
         (runRounds N w n).2 ++ (runRound N (w n) (runRounds N w n).1).2)
      else runRounds N w n := rfl

theorem loopGuard_eofReached {st : SchedState} (h : loopGuard st = true) :
    st.eofReached = false := by
  unfold loopGuard at h
  simp at h
  exact h.1

theorem runRounds_retryCount (N : Nat) (w : Nat → Nat → Nat → FetchResult) :
    ∀ n, (runRounds N w n).1.retryCount ≤ maxRetries := by
  intro n
  induction n with
  | zero => exact Nat.zero_le _
  | succ n ih =>
      cases hg : loopGuard (runRounds N w n).1 with
      | false => simpa [runRounds_succ, hg] using ih
      | true =>
          rw [runRounds_succ]
          simp only [hg, if_true]
          exact runRound_retryCount_le _ _ _ ih

theorem runRounds_processed_mono (N : Nat) (w : Nat → Nat → Nat → FetchResult)
    {m n : Nat} (h : m ≤ n) :
    (runRounds N w m).1.processed ⊆ (runRounds N w n).1.processed := by
  induction n, h using Nat.le_induction with
  | base => exact fun x hx => hx
  | succ n hmn ih =>
      refine ih.trans ?_
      cases hg : loopGuard (runRounds N w n).1 with
      | false =>
          rw [runRounds_succ]
          simp only [hg, if_false]
          exact fun x hx => hx
      | true =>
          rw [runRounds_succ]
          simp only [hg, if_true]
          exact runRound_processed_mono _ _ _

theorem runRounds_inv (N : Nat) (w : Nat → Nat → Nat → FetchResult) :
    ∀ n, Inv (runRounds N w n) := by
  intro n
  induction n with
  | zero =>
      refine ⟨?_, ?_, ?_⟩ <;> simp [runRounds, initState, chunkIds, effIds]
  | succ n ih =>
      cases hg : loopGuard (runRounds N w n).1 with
      | false => simpa [runRounds_succ, hg] using ih
      | true =>
          have hEof : (runRounds N w n).1.eofReached = false := loopGuard_eofReached hg
          have hpend : (runRounds N w n).2 = [] := ih.2.2 hEof
          have h1 : (chunkIds (runRounds N w n).1.chunks).Nodup := by
            have h0 := ih.1
            rw [hpend] at h0
            simpa [effIds] using h0
          have hInvR := inv_round N (w n) (runRounds N w n).1 h1 ih.2.1
          rw [runRounds_succ]
          simp only [hg, if_true, hpend, List.nil_append]
          exact hInvR

theorem selectPending_sublist (sel : Nat → Bool) :
    ∀ (es : List WorkerEffects) (i : Nat),
      List.Sublist (selectPending sel i es) es := by
  intro es
  induction es with
  | nil => intro i; simp [selectPending]
  | cons e t ih =>
      intro i
      unfold selectPending
      split_ifs
      · exact (ih (i + 1)).cons₂ e
      · exact (ih (i + 1)).cons e

theorem snapshot_ids (N : Nat) (w : Nat → Nat → Nat → FetchResult) (n : Nat)
    (sel : Nat → Bool) :
    (snapshotChunks N w n sel).map Chunk.id =
      chunkIds (runRounds N w n).1.chunks ++
        effIds (selectPending sel 0 (runRounds N w n).2) := by
  unfold snapshotChunks snapshotState
  rw [applyAll_chunks, List.map_append]
  rw [show (((selectPending sel 0 (runRounds N w n).2).filterMap
      (fun e => e.success)).map Chunk.id) =
    effIds (selectPending sel 0 (runRounds N w n).2) from chunkIds_filterMap _]
  rfl

/-- C2: a chunk id that is a member of the processed set is never assigned to
a worker in any later round, and every chunk id occurs at most once in the
chunk collection the assembler consumes. -/
theorem c2_idempotent_skip (N : Nat) (w : Nat → Nat → Nat → FetchResult)
    (m n : Nat) (sel : Nat → Bool) (hmn : m ≤ n) :
    (∀ cid ∈ (runRounds N w m).1.processed,
        cid ∉ spawnIds N (runRounds N w n).1) ∧
    ((snapshotChunks N w n sel).map Chunk.id).Nodup := by
  constructor
  · intro cid hcid hsp
    exact spawnIds_not_processed hsp (runRounds_processed_mono N w hmn hcid)
  · have hInv := runRounds_inv N w n
    rw [snapshot_ids]
    refine hInv.1.sublist ?_
    exact List.Sublist.append_left
      (List.Sublist.filterMap _ (selectPending_sublist sel (runRounds N w n).2 0)) _

/-- Witness for C2 at a concrete run: two rounds against an always-successful
single-worker environment. -/
theorem c2_idempotent_skip_witness :
    (∀ cid ∈ (runRounds 1 (fun _ _ _ => FetchResult.ok [1] "h") 1).1.processed,
        cid ∉ spawnIds 1 (runRounds 1 (fun _ _ _ => FetchResult.ok [1] "h") 2).1) ∧
    ((snapshotChunks 1 (fun _ _ _ => FetchResult.ok [1] "h") 2
        (fun _ => true)).map Chunk.id).Nodup :=
  c2_idempotent_skip 1 (fun _ _ _ => FetchResult.ok [1] "h") 1 2 (fun _ => true)
    (by decide)

/-- C6: after an EOF-free round, if some ids of the window are missing from
the processed set and the retry budget is not yet exceeded, the cursor stays
and the retry counter is incremented, and the next round spawns exactly the
missing ids; once the incremented counter would exceed `max_retries = 3`,
the cursor force-advances by exactly the concurrency and the counter resets;
with no missing ids the cursor advances and the counter resets. -/
theorem c6_batch_retry_policy (N : Nat) (f : Nat → Nat → FetchResult)
    (st : SchedState)
    (hnoeof : ∀ r ∈ roundResults N f st, r.1 = none) :
    ((Finset.range N).image (fun i => st.nextChunk + i) \
        (applyAll st ((roundResults N f st).map Prod.snd)).processed ≠ ∅ →
      (st.retryCount + 1 ≤ maxRetries →
        (runRound N f st).1.nextChunk = st.nextChunk ∧
        (runRound N f st).1.retryCount = st.retryCount + 1 ∧
        (spawnIds N (runRound N f st).1).toFinset =
          (Finset.range N).image (fun i => st.nextChunk + i) \
            (applyAll st ((roundResults N f st).map Prod.snd)).processed) ∧
      (st.retryCount + 1 > maxRetries →
        (runRound N f st).1.nextChunk = st.nextChunk + N ∧
        (runRound N f st).1.retryCount = 0)) ∧
    ((Finset.range N).image (fun i => st.nextChunk + i) \
        (applyAll st ((roundResults N f st).map Prod.snd)).processed = ∅ →
      (runRound N f st).1.nextChunk = st.nextChunk + N ∧
      (runRound N f st).1.retryCount = 0) := by
  have hsplit := splitAtFirstEof_all_none hnoeof
  unfold runRound
  simp only [hsplit]
  constructor
  · intro hm
    rw [if_neg hm]
    constructor
    · intro hrc
      have hrc' : ¬ ((applyAll st ((roundResults N f st).map Prod.snd)).retryCount
          + 1 > maxRetries) := by
        rw [applyAll_retryCount]
        omega
      rw [if_neg hrc']
      refine ⟨by simp [applyAll_nextChunk], by simp [applyAll_retryCount], ?_⟩
      rw [spawnIds_toFinset]
      simp [applyAll_nextChunk]
    · intro hrc
      have hrc' : (applyAll st ((roundResults N f st).map Prod.snd)).retryCount
          + 1 > maxRetries := by
        rw [applyAll_retryCount]
        omega
      rw [if_pos hrc']
      exact ⟨by simp [applyAll_nextChunk], rfl⟩
  · intro hm
    rw [if_pos hm]
    exact ⟨by simp [applyAll_nextChunk], rfl⟩

/-- Witness for C6 at a concrete failing round: one all-failing worker, fresh
state, so the batch is retried with the same cursor and counter 1, spawning
exactly the missing id. -/
theorem c6_batch_retry_policy_witness :
    (runRound 1 (fun _ _ => FetchResult.err "boom") initState).1.nextChunk = 0 ∧
    (runRound 1 (fun _ _ => FetchResult.err "boom") initState).1.retryCount = 1 ∧
    (spawnIds 1 (runRound 1 (fun _ _ => FetchResult.err "boom")
        initState).1).toFinset =
      (Finset.range 1).image (fun i => initState.nextChunk + i) \
        (applyAll initState ((roundResults 1 (fun _ _ => FetchResult.err "boom")
          initState).map Prod.snd)).processed := by
  have h := c6_batch_retry_policy 1 (fun _ _ => FetchResult.err "boom") initState
    (by decide)
  have h2 := (h.1 (by decide)).1 (by decide)
  simpa [initState] using h2

/-- C8: the scheduling loop's batch-retry counter never exceeds its bound, so
the loop guard becomes false exactly when the EOF flag is set; against an
environment that never produces an EOF-shaped response the guard stays true
forever (the loop never terminates). -/
theorem c8_loop_terminates_iff_eof (N : Nat) (w : Nat → Nat → Nat → FetchResult)
    (n : Nat) :
    (runRounds N w n).1.retryCount ≤ maxRetries ∧
    (loopGuard (runRounds N w n).1 = false ↔
      (runRounds N w n).1.eofReached = true) ∧
    ((∀ r c a, fetchEof (w r c a) = false) →
      ∀ m, loopGuard (runRounds N w m).1 = true) := by
  refine ⟨runRounds_retryCount N w n, ?_, ?_⟩
  · have h := runRounds_retryCount N w n
    unfold loopGuard
    cases he : (runRounds N w n).1.eofReached <;> simp [he, h]
  · intro hw m
    have hno : ∀ k, (runRounds N w k).1.eofReached = false := by
      intro k
      induction k with
      | zero => rfl
      | succ k ih =>
          cases hg : loopGuard (runRounds N w k).1 with
          | false =>
              rw [runRounds_succ]
              simp only [hg, if_false]
              exact ih
          | true =>
              have hnoeof : ∀ r ∈ roundResults N (w k) (runRounds N w k).1,
                  r.1 = none := by
                intro r hr
                obtain ⟨cid, hcid, hcr⟩ := List.mem_map.mp hr
                rw [← hcr]
                exact workerLoop_ret_none cid (w k cid) (fun a => hw k cid a)
                  maxChunkRetries 0
              rw [runRounds_succ]
              simp only [hg, if_true]
              rw [runRound_no_eof _ _ _ hnoeof]
              exact ih
    unfold loopGuard
    simp [hno m, runRounds_retryCount N w m]

/-- Witness for C8: an environment that always errors keeps the guard true
after five rounds. -/
theorem c8_loop_terminates_witness :
    loopGuard (runRounds 1 (fun _ _ _ => FetchResult.err "x") 5).1 = true :=
  (c8_loop_terminates_iff_eof 1 (fun _ _ _ => FetchResult.err "x") 0).2.2
    (fun _ _ _ => rfl) 5

/-- C1 evidence: with two workers in round 0 where worker 0 reports EOF and
its sibling worker 1 succeeds with bytes `[7, 8]`, the loop terminates, the
sibling did succeed within the round, yet under the interleaving where the
unjoined sibling finishes after the scheduler's snapshot the chunk collection
handed to the assembler is empty — the sibling's successful result is not
recorded before the snapshot, because the join loop breaks at the first EOF
instead of joining all spawned workers. -/
theorem c1_round_barrier_violated :
    (runRounds 2 c1World 1).1.eofReached = true ∧
    (roundResults 2 (c1World 0) initState).map (fun r => r.2.success) =
      [none, some ⟨1, [7, 8]⟩] ∧
    snapshotChunks 2 c1World 1 (fun _ => false) = [] :=
  ⟨by decide, by decide, by decide⟩

end BuggyClient
